import Mathlib

/-!
Verification of the minterm truth-table minimizer (`src/main.rs`).

The Rust program turns a truth table (rows of input `Bit`s mapped to output
booleans) into one boolean equation per output: the OR of product terms.
`Equation::simplify` repeatedly merges pairs of terms that differ in exactly
one variable's polarity, dropping that variable.

This file gives a shallow embedding of the relevant Rust items and proves
properties about them.  Rust panics are modelled by `Option`: a function
returns `none` exactly when the original code would panic (or, for
`equations`, fail an `assert!`).
-/

namespace Minterm

/-- Rust `enum Bit { On, Off, NA }`. -/
inductive Bit
| On
| Off
| NA
deriving DecidableEq, Repr

/-- Rust `Bit::new(b: bool)`. -/
def Bit.new (b : Bool) : Bit := if b then .On else .Off

/-- Rust `struct Entry { input: Vec<Bit>, output: Vec<bool> }`. -/
structure Entry where
  input : List Bit
  output : List Bool
deriving DecidableEq, Repr

instance : Inhabited Entry := ⟨⟨[], []⟩⟩

/-- Rust `type Variable = (usize, bool)`. -/
abbrev Variable := Nat × Bool

/-- Rust `struct Term { bits: Vec<Variable> }`. -/
structure Term where
  bits : List Variable
deriving DecidableEq, Repr

instance : Inhabited Term := ⟨⟨[]⟩⟩

/-- Loop body of Rust `Term::compute`: builds the variable list starting at
index `i`; `none` models the `panic!("NA bits during compute?")`. -/
def computeBits : Nat → List Bit → Option (List Variable)
| _, [] => some []
| i, b :: rest =>
  match b with
  | .On => (computeBits (i + 1) rest).map (fun l => (i, true) :: l)
  | .Off => (computeBits (i + 1) rest).map (fun l => (i, false) :: l)
  | .NA => none

/-- Rust `Term::compute(bits: &Vec<Bit>)`. -/
def Term.compute (row : List Bit) : Option Term :=
  (computeBits 0 row).map Term.mk

/-- Rust `Term::len`. -/
def Term.len (t : Term) : Nat := t.bits.length

/-- Rust `Term::mergeable`: same length, same index set (first loop), and
exactly one index whose polarity differs (second loop, counting via the
first `find` hit per index). -/
def Term.mergeable (t o : Term) : Bool :=
  if t.len != o.len then false
  else if !(t.bits.all fun v => (o.bits.find? fun w => w.fst == v.fst).isSome) then false
  else
    (t.bits.countP fun v =>
      match o.bits.find? fun w => w.fst == v.fst with
      | some w => w.snd != v.snd
      | none => false) == 1

/-- Rust `Term::remove_index`: `bits.retain(|&b| b.0 != idx)`. -/
def Term.removeIndex (t : Term) (idx : Nat) : Term :=
  ⟨t.bits.filter fun v => v.fst != idx⟩

/-- Rust `struct Truth { table: Vec<Entry> }`. -/
structure Truth where
  table : List Entry
deriving DecidableEq, Repr

/-- Rust `struct Equation { index, terms, varname }`. -/
structure Equation where
  index : Nat
  terms : List Term
  varname : String
deriving DecidableEq, Repr

/-- The minterm-collection loop of Rust `Equation::new`: one term per entry
whose `output[idx]` is set; `none` models a failed `assert!(idx <
ent.output.len())` or a panic inside `Term::compute`. -/
def mintermList : List Entry → Nat → Option (List Term)
| [], _ => some []
| e :: rest, idx =>
  if idx < e.output.length then
    if e.output.getD idx false = false then mintermList rest idx
    else
      match Term.compute e.input with
      | none => none
      | some t => (mintermList rest idx).map (fun l => t :: l)
  else none

/-- Rust `Equation::new`. -/
def Equation.new (tbl : Truth) (idx : Nat) (vn : String) : Option Equation :=
  (mintermList tbl.table idx).map fun ts => ⟨idx, ts, vn⟩

/-- The `iter.find` inside Rust `Equation::simplify`: first position of the
zip of the two bit lists whose pair has equal index and opposite polarity;
returns that pair's index (`idx.0`). -/
def zipFindOpp (t1 t2 : Term) : Option Nat :=
  ((t1.bits.zip t2.bits).find? fun p =>
    p.fst.fst == p.snd.fst && p.fst.snd != p.snd.snd).map fun p => p.fst.fst

/-- Outcome of the double scan loop in Rust `Equation::simplify`. -/
inductive ScanResult
| notFound
| panicked
| found (t1Loc bitIdx t2Loc : Nat)
deriving DecidableEq, Repr

/-- The inner `for (t2_loc, t2)` loop: first index (counting from `i`) whose
term is a mergeable partner of `t1` distinct from it. -/
def innerScan (t1 : Term) : Nat → List Term → Option Nat
| _, [] => none
| i, t2 :: rest =>
  if t1 != t2 && t1.mergeable t2 then some i else innerScan t1 (i + 1) rest

/-- The outer `for (t1_loc, t1)` loop of Rust `Equation::simplify`, carrying
the mutable `found`/`idx_remove`/`term_remove` state.  A later hit overwrites
an earlier one (the Rust `break` only leaves the inner loop); the
`panic!("mergeable but no opposite bits?")` aborts everything. -/
def scanGo (terms : List Term) : List Nat → ScanResult → ScanResult
| [], st => st
| t1Loc :: rest, st =>
  match innerScan (terms.getD t1Loc default) 0 terms with
  | none => scanGo terms rest st
  | some t2Loc =>
    match zipFindOpp (terms.getD t1Loc default) (terms.getD t2Loc default) with
    | none => .panicked
    | some d => scanGo terms rest (.found t1Loc d t2Loc)

/-- The whole double loop of Rust `Equation::simplify`. -/
def scan (terms : List Term) : ScanResult :=
  scanGo terms (List.range terms.length) .notFound

/-- The mutation after the scan: `terms[t1_loc].remove_index(bit)` followed by
`terms.remove(t2_loc)`. -/
def applyMerge (terms : List Term) (l1 d l2 : Nat) : List Term :=
  (terms.set l1 ((terms.getD l1 default).removeIndex d)).eraseIdx l2

/-- Rust `Equation::simplify`, recursion made explicit with fuel.  Each
successful merge removes one term, so `terms.length` steps always suffice
(`simplifyFuel_fuel_irrelevant` below); the fuel-exhaustion branch at `0`
with a pending merge is unreachable from `simplifyTerms`.  `none` models the
`panic!` branch. -/
def simplifyFuel : Nat → List Term → Option (List Term)
| 0, terms =>
  match scan terms with
  | .notFound => some terms
  | _ => none
| fuel + 1, terms =>
  match scan terms with
  | .notFound => some terms
  | .panicked => none
  | .found l1 d l2 => simplifyFuel fuel (applyMerge terms l1 d l2)

/-- Rust `Equation::simplify` on the term list. -/
def simplifyTerms (terms : List Term) : Option (List Term) :=
  simplifyFuel terms.length terms

/-- Rust `Equation::simplify`. -/
def Equation.simplify (e : Equation) : Option Equation :=
  (simplifyTerms e.terms).map fun ts => ⟨e.index, ts, e.varname⟩

/-- The `for b in 0..output_len` loop of Rust `equations`, pushing one
`Equation::new` per listed output column; `none` models a panic in any of
them. -/
def eqList (truth : Truth) (outvars : List String) : List Nat → Option (List Equation)
| [] => some []
| b :: rest =>
  match Equation.new truth b (outvars.getD b "") with
  | none => none
  | some e => (eqList truth outvars rest).map (fun l => e :: l)

/-- Rust `fn equations`: the `assert!`s on the table followed by one
`Equation::new` per output column. -/
def equations (truth : Truth) (outvars : List String) : Option (List Equation) :=
  if truth.table.isEmpty then none
  else if !(truth.table.all fun e =>
      e.input.length == (truth.table.headD default).input.length &&
      e.output.length == (truth.table.headD default).output.length) then none
  else if (truth.table.headD default).output.length != outvars.length then none
  else eqList truth outvars (List.range (truth.table.headD default).output.length)

/-- The per-entry input-width check in Rust `main` (exit on mismatch). -/
def mainLenCheck (truth : Truth) (inputBits : Nat) : Bool :=
  truth.table.all fun e => e.input.length == inputBits

/-- The row-count check in Rust `main`: `tbl.len() == 2.pow(input_bits)`. -/
def mainCountCheck (truth : Truth) (inputBits : Nat) : Bool :=
  truth.table.length == 2 ^ inputBits

/-- The fixed name array in Rust `impl fmt::Display for Term`. -/
def varNames : List Char :=
  ['a', 'b', 'c', 'd', 'e', 'f', 'g', 'h', 'i', 'j', 'k', 'l', 'm',
   'n', 'o', 'p', 'q', 'r', 's', 't', 'u', 'v', 'w', 'x', 'y', 'z']

/-- One variable of the `Display` loop; `none` models the failed
`assert!(var.0 < names.len())`. -/
def renderVar (v : Variable) : Option String :=
  match varNames.get? v.fst with
  | none => none
  | some c => some (String.mk [c] ++ if v.snd then "" else "'")

/-- Rust `impl fmt::Display for Term`: concatenates the rendered variables;
`none` models the assertion failure on an index outside the name array. -/
def Term.render (t : Term) : Option String :=
  t.bits.foldlM (fun acc v => (renderVar v).map (fun s => acc ++ s)) ""

/-! ## Evaluation and coverage

The Rust program has no evaluation function; the spec defines evaluation of
an equation on a row: OR over terms, a term true iff every index it
constrains matches the row's bit there.  `coversF` is the same notion on
total assignments (spec §4.1 `covers`). -/

/-- Spec evaluation of one term on an input row: every constrained index
matches the row's bit at that index. -/
def Term.eval (t : Term) (input : List Bit) : Bool :=
  t.bits.all fun v => input.getD v.fst .NA == Bit.new v.snd

/-- Spec evaluation of a term list (an equation's right-hand side): OR. -/
def evalTerms (ts : List Term) (input : List Bit) : Bool :=
  ts.any fun t => t.eval input

/-- A total assignment satisfies a term iff it matches every constrained
index (spec `covers`). -/
def Term.coversF (t : Term) (f : Nat → Bool) : Prop :=
  ∀ v ∈ t.bits, f v.fst = v.snd

/-- The set of assignments covered by a term. -/
def Term.coversSet (t : Term) : Set (Nat → Bool) :=
  {f | t.coversF f}

/-- The set of assignments covered by some term of the list. -/
def coversUnion (ts : List Term) : Set (Nat → Bool) :=
  {f | ∃ t ∈ ts, t.coversF f}

/-- The assignment a fully specified row denotes. -/
def rowF (input : List Bit) : Nat → Bool :=
  fun j => input.getD j .NA == .On

/-- A term's bit list is in strictly increasing index order (the shape
`Term::compute` produces and `remove_index` preserves). -/
def Term.SortedIdx (t : Term) : Prop :=
  t.bits.Pairwise fun a b => a.fst < b.fst

/-- All constrained indices are below `B`. -/
def Term.BoundedIdx (B : Nat) (t : Term) : Prop :=
  ∀ v ∈ t.bits, v.fst < B

/-- The full minterm of a row: one variable per position. -/
def fullTerm (row : List Bit) : Term :=
  ⟨(List.range row.length).map fun j => (j, row.getD j Bit.NA == Bit.On)⟩

end Minterm

namespace Minterm

/-! ## Generic list lemmas: the effect of `set`/`eraseIdx` up to permutation -/

lemma getD_eraseIdx_lt {α : Type} :
    ∀ (l : List α) (i j : Nat) (d : α), j < i → (l.eraseIdx i).getD j d = l.getD j d := by
  intro l
  induction l with
  | nil => intro i j d _; rfl
  | cons a t ih =>
    intro i j d hji
    cases i with
    | zero => omega
    | succ i =>
      cases j with
      | zero => simp [List.eraseIdx_cons_succ]
      | succ j =>
        simp only [List.eraseIdx_cons_succ, List.getD_cons_succ]
        exact ih i j d (by omega)

lemma getD_eraseIdx_ge {α : Type} :
    ∀ (l : List α) (i j : Nat) (d : α), i ≤ j → (l.eraseIdx i).getD j d = l.getD (j + 1) d := by
  intro l
  induction l with
  | nil => intro i j d _; rfl
  | cons a t ih =>
    intro i j d hij
    cases i with
    | zero => simp [List.eraseIdx_cons_zero, List.getD_cons_succ]
    | succ i =>
      cases j with
      | zero => omega
      | succ j =>
        simp only [List.eraseIdx_cons_succ, List.getD_cons_succ]
        exact ih i j d (by omega)

lemma eraseIdx_cons_perm {α : Type} :
    ∀ (l : List α) (j : Nat) (d : α), j < l.length → l.Perm (l.getD j d :: l.eraseIdx j) := by
  intro l
  induction l with
  | nil => intro j d h; simp at h
  | cons a t ih =>
    intro j d h
    cases j with
    | zero => simp
    | succ j =>
      simp only [List.eraseIdx_cons_succ, List.getD_cons_succ]
      have := ih j d (by simpa using Nat.lt_of_succ_lt_succ h)
      exact (List.Perm.cons a this).trans (List.Perm.swap _ _ _)

lemma set_cons_perm {α : Type} :
    ∀ (l : List α) (i : Nat) (a : α), i < l.length → (l.set i a).Perm (a :: l.eraseIdx i) := by
  intro l
  induction l with
  | nil => intro i a h; simp at h
  | cons b t ih =>
    intro i a h
    cases i with
    | zero => simp
    | succ i =>
      simp only [List.set_cons_succ, List.eraseIdx_cons_succ]
      have := ih i a (by simpa using Nat.lt_of_succ_lt_succ h)
      exact (List.Perm.cons b this).trans (List.Perm.swap _ _ _)

lemma set_eraseIdx_comm_lt {α : Type} :
    ∀ (l : List α) (i j : Nat) (a : α), i < j →
      (l.set i a).eraseIdx j = (l.eraseIdx j).set i a := by
  intro l
  induction l with
  | nil => intro i j a _; rfl
  | cons b t ih =>
    intro i j a hij
    cases j with
    | zero => omega
    | succ j =>
      cases i with
      | zero => simp
      | succ i =>
        simp only [List.set_cons_succ, List.eraseIdx_cons_succ]
        rw [ih i j a (by omega)]

lemma set_eraseIdx_comm_ge {α : Type} :
    ∀ (l : List α) (i j : Nat) (a : α), j ≤ i →
      (l.set (i + 1) a).eraseIdx j = (l.eraseIdx j).set i a := by
  intro l
  induction l with
  | nil => intro i j a _; rfl
  | cons b t ih =>
    intro i j a hij
    cases j with
    | zero => simp
    | succ j =>
      cases i with
      | zero => omega
      | succ i =>
        simp only [List.set_cons_succ, List.eraseIdx_cons_succ]
        rw [ih i j a (by omega)]

/-- The one merge step of `Equation::simplify`, up to permutation: the list is
`t1`, `t2` and a remainder; after the step it is the merged term and the same
remainder. -/
lemma merge_surgery {α : Type} (l : List α) (d0 m : α) (l1 l2 : Nat)
    (h1 : l1 < l.length) (h2 : l2 < l.length) (hne : l1 ≠ l2) :
    ∃ rest : List α,
      l.Perm (l.getD l1 d0 :: l.getD l2 d0 :: rest) ∧
      ((l.set l1 m).eraseIdx l2).Perm (m :: rest) := by
  rcases Nat.lt_or_ge l1 l2 with hlt | hge
  · refine ⟨(l.eraseIdx l2).eraseIdx l1, ?_, ?_⟩
    · have pA : l.Perm (l.getD l2 d0 :: l.eraseIdx l2) := eraseIdx_cons_perm l l2 d0 h2
      have hlen : l1 < (l.eraseIdx l2).length := by
        rw [List.length_eraseIdx]
        simp only [h2, if_pos]
        omega
      have pB : (l.eraseIdx l2).Perm ((l.eraseIdx l2).getD l1 d0 :: (l.eraseIdx l2).eraseIdx l1) :=
        eraseIdx_cons_perm _ l1 d0 hlen
      rw [getD_eraseIdx_lt l l2 l1 d0 hlt] at pB
      exact (pA.trans (List.Perm.cons _ pB)).trans (List.Perm.swap _ _ _)
    · rw [set_eraseIdx_comm_lt l l1 l2 m hlt]
      have hlen : l1 < (l.eraseIdx l2).length := by
        rw [List.length_eraseIdx]
        simp only [h2, if_pos]
        omega
      exact set_cons_perm _ l1 m hlen
  · have hgt : l2 < l1 := by omega
    obtain ⟨l1p, rfl⟩ : ∃ l1p, l1 = l1p + 1 := ⟨l1 - 1, by omega⟩
    refine ⟨(l.eraseIdx l2).eraseIdx l1p, ?_, ?_⟩
    · have pA : l.Perm (l.getD l2 d0 :: l.eraseIdx l2) := eraseIdx_cons_perm l l2 d0 h2
      have hlen : l1p < (l.eraseIdx l2).length := by
        rw [List.length_eraseIdx]
        simp only [h2, if_pos]
        omega
      have pB : (l.eraseIdx l2).Perm ((l.eraseIdx l2).getD l1p d0 :: (l.eraseIdx l2).eraseIdx l1p) :=
        eraseIdx_cons_perm _ l1p d0 hlen
      rw [getD_eraseIdx_ge l l2 l1p d0 (by omega)] at pB
      exact (pA.trans (List.Perm.cons _ pB)).trans (List.Perm.swap _ _ _)
    · rw [set_eraseIdx_comm_ge l l1p l2 m (by omega)]
      have hlen : l1p < (l.eraseIdx l2).length := by
        rw [List.length_eraseIdx]
        simp only [h2, if_pos]
        omega
      exact set_cons_perm _ l1p m hlen

end Minterm

namespace Minterm

/-! ## `Term::compute` -/

lemma computeBits_eq_none_iff : ∀ (i : Nat) (row : List Bit),
    computeBits i row = none ↔ Bit.NA ∈ row := by
  intro i row
  induction row generalizing i with
  | nil => simp [computeBits]
  | cons b rest ih =>
    cases b <;> simp [computeBits, Option.map_eq_none', ih]

lemma computeBits_eq_of_noNA : ∀ (i : Nat) (row : List Bit), Bit.NA ∉ row →
    computeBits i row =
      some ((List.range row.length).map fun j => (i + j, row.getD j Bit.NA == Bit.On)) := by
  intro i row
  induction row generalizing i with
  | nil => intro _; simp [computeBits]
  | cons b rest ih =>
    intro hna
    have hb : b ≠ Bit.NA := fun h => hna (h ▸ List.mem_cons_self b rest)
    have hrest : Bit.NA ∉ rest := fun h => hna (List.mem_cons_of_mem b h)
    have hmap : (List.range (b :: rest).length).map
          (fun j => (i + j, (b :: rest).getD j Bit.NA == Bit.On)) =
        (i, b == Bit.On) ::
          (List.range rest.length).map fun j => (i + 1 + j, rest.getD j Bit.NA == Bit.On) := by
      simp only [List.length_cons, List.range_succ_eq_map, List.map_cons, List.map_map,
        Nat.add_zero, List.getD_cons_zero]
      refine congrArg _ (List.map_congr_left ?_)
      intro j _
      simp only [Function.comp_apply, Nat.succ_eq_add_one, List.getD_cons_succ]
      refine congrArg (fun n => (n, rest.getD j Bit.NA == Bit.On)) (by omega)
    cases b with
    | NA => exact absurd rfl hb
    | On => rw [hmap]; simp [computeBits, ih (i + 1) hrest]
    | Off => rw [hmap]; simp [computeBits, ih (i + 1) hrest]

lemma compute_eq_none_iff (row : List Bit) : Term.compute row = none ↔ Bit.NA ∈ row := by
  simp [Term.compute, Option.map_eq_none', computeBits_eq_none_iff]

lemma compute_eq_fullTerm {row : List Bit} (h : Bit.NA ∉ row) :
    Term.compute row = some (fullTerm row) := by
  rw [Term.compute, computeBits_eq_of_noNA 0 row h]
  simp [fullTerm]

lemma fullTerm_sortedIdx (row : List Bit) : (fullTerm row).SortedIdx := by
  rw [Term.SortedIdx, fullTerm, List.pairwise_map]
  exact List.pairwise_lt_range _

lemma fullTerm_boundedIdx (row : List Bit) : (fullTerm row).BoundedIdx row.length := by
  intro v hv
  rw [fullTerm, List.mem_map] at hv
  obtain ⟨j, hj, rfl⟩ := hv
  exact List.mem_range.mp hj

lemma coversF_fullTerm_iff (row : List Bit) (f : Nat → Bool) :
    (fullTerm row).coversF f ↔ ∀ j < row.length, f j = (row.getD j Bit.NA == Bit.On) := by
  constructor
  · intro h j hj
    exact h (j, row.getD j Bit.NA == Bit.On)
      (List.mem_map.mpr ⟨j, List.mem_range.mpr hj, rfl⟩)
  · intro h v hv
    rw [fullTerm, List.mem_map] at hv
    obtain ⟨j, hj, rfl⟩ := hv
    exact h j (List.mem_range.mp hj)

/-! ## `find?` on duplicate-free association lists -/

lemma find_lookup_self : ∀ {l : List Variable}, (l.map Prod.fst).Nodup →
    ∀ {v : Variable}, v ∈ l → l.find? (fun w => w.fst == v.fst) = some v := by
  intro l
  induction l with
  | nil => intro _ v hv; simp at hv
  | cons a t ih =>
    intro hn v hv
    rw [List.map_cons, List.nodup_cons] at hn
    rcases List.mem_cons.mp hv with rfl | hvt
    · exact List.find?_cons_of_pos _ (by simp)
    · have hne : a.fst ≠ v.fst := by
        intro he
        exact hn.1 (he ▸ List.mem_map.mpr ⟨v, hvt, rfl⟩)
      rw [List.find?_cons_of_neg _ (by simpa using hne)]
      exact ih hn.2 hvt

lemma allFound_iff (a b : List Variable) :
    (a.all fun v => (b.find? fun w => w.fst == v.fst).isSome) = true ↔
      (a.map Prod.fst) ⊆ (b.map Prod.fst) := by
  rw [List.all_eq_true]
  constructor
  · intro h i hi
    rw [List.mem_map] at hi
    obtain ⟨v, hv, rfl⟩ := hi
    have := List.find?_isSome.mp (h v hv)
    obtain ⟨w, hw, hweq⟩ := this
    exact List.mem_map.mpr ⟨w, hw, by simpa using hweq⟩
  · intro h v hv
    have : v.fst ∈ b.map Prod.fst := h (List.mem_map.mpr ⟨v, hv, rfl⟩)
    rw [List.mem_map] at this
    obtain ⟨w, hw, hweq⟩ := this
    exact List.find?_isSome.mpr ⟨w, hw, by simpa using hweq⟩

lemma fsts_perm (a b : List Variable) (hnda : (a.map Prod.fst).Nodup)
    (hlen : a.length = b.length) (hsub : (a.map Prod.fst) ⊆ (b.map Prod.fst)) :
    (a.map Prod.fst).Perm (b.map Prod.fst) :=
  (List.subperm_of_subset hnda hsub).perm_of_length_le (by simp [hlen])

lemma sortedIdx_fst_nodup {t : Term} (h : t.SortedIdx) : (t.bits.map Prod.fst).Nodup := by
  have hp : (t.bits.map Prod.fst).Pairwise (· < ·) := List.pairwise_map.mpr h
  exact hp.imp Nat.ne_of_lt
end Minterm

namespace Minterm


lemma bool_bne_comm (x y : Bool) : (x != y) = (y != x) := by
  cases x <;> cases y <;> rfl

lemma mergeable_unfold (t o : Term) :
    t.mergeable o = true ↔
      t.len = o.len ∧
      ((t.bits.all fun v => (o.bits.find? fun w => w.fst == v.fst).isSome) = true) ∧
      (t.bits.countP fun v =>
        match o.bits.find? fun w => w.fst == v.fst with
        | some w => w.snd != v.snd
        | none => false) = 1 := by
  rw [Term.mergeable]
  by_cases h1 : t.len = o.len
  · by_cases h2 : (t.bits.all fun v => (o.bits.find? fun w => w.fst == v.fst).isSome) = true
    · rw [if_neg (by simp [h1]), if_neg (by simp [h2])]
      simp [h1, h2]
    · rw [Bool.not_eq_true] at h2
      rw [if_neg (by simp [h1]), if_pos (by rw [h2]; rfl)]
      simp [h2]
  · rw [if_pos (by simpa using h1)]
    simp [h1]

/-- Positional count of polarity differences between two bit lists (how many
zip pairs of `Equation::simplify`'s `iter` have differing `bit.1`). -/
def diffCount : List Variable → List Variable → Nat
| a :: t1, b :: t2 => diffCount t1 t2 + (if a.snd != b.snd then 1 else 0)
| _, _ => 0

lemma countP_find_eq_diffCount :
    ∀ (l1 l2 : List Variable), l1.map Prod.fst = l2.map Prod.fst →
      (l2.map Prod.fst).Nodup →
      (l1.countP fun v =>
        match l2.find? fun w => w.fst == v.fst with
        | some w => w.snd != v.snd
        | none => false)
      = diffCount l1 l2 := by
  intro l1
  induction l1 with
  | nil => intro l2 _ _; simp [diffCount]
  | cons a t1 ih =>
    intro l2 hmap hnd
    cases l2 with
    | nil => simp at hmap
    | cons b t2 =>
      simp only [List.map_cons, List.cons.injEq] at hmap
      obtain ⟨hab, hmap2⟩ := hmap
      rw [List.map_cons, List.nodup_cons] at hnd
      have hfind : (b :: t2).find? (fun w => w.fst == a.fst) = some b :=
        List.find?_cons_of_pos _ (by simp [hab])
      have htail : (t1.countP fun v =>
            match (b :: t2).find? (fun w => w.fst == v.fst) with
            | some w => w.snd != v.snd
            | none => false)
          = (t1.countP fun v =>
            match t2.find? (fun w => w.fst == v.fst) with
            | some w => w.snd != v.snd
            | none => false) := by
        apply List.countP_congr
        intro v hv
        have hvf : v.fst ∈ t2.map Prod.fst := hmap2 ▸ List.mem_map.mpr ⟨v, hv, rfl⟩
        have hbv : ((fun w : Variable => w.fst == v.fst) b) = false := by
          simp only [beq_eq_false_iff_ne, ne_eq]
          intro he
          exact hnd.1 (he ▸ hvf)
        rw [List.find?_cons_of_neg _ (by simp [hbv])]
      simp only [List.countP_cons, hfind, diffCount]
      rw [htail, ih t2 hmap2 hnd.2, bool_bne_comm b.snd a.snd]

lemma diffCount_zero_eq :
    ∀ (l1 l2 : List Variable), l1.map Prod.fst = l2.map Prod.fst →
      diffCount l1 l2 = 0 → l1 = l2 := by
  intro l1
  induction l1 with
  | nil =>
    intro l2 hmap _
    cases l2 with
    | nil => rfl
    | cons b t2 => simp at hmap
  | cons a t1 ih =>
    intro l2 hmap hcount
    cases l2 with
    | nil => simp at hmap
    | cons b t2 =>
      simp only [List.map_cons, List.cons.injEq] at hmap
      rw [diffCount] at hcount
      have hd : diffCount t1 t2 = 0 := by omega
      have hif : (if (a.snd != b.snd) = true then 1 else 0) = 0 := by omega
      have hsnd : a.snd = b.snd := by
        by_cases hx : (a.snd != b.snd) = true
        · rw [if_pos hx] at hif; cases hif
        · cases ca : a.snd <;> cases cb : b.snd <;> simp_all
      rw [Prod.ext hmap.1 hsnd, ih t2 hmap.2 hd]

lemma diffCount_one_decomp :
    ∀ (l1 l2 : List Variable), l1.map Prod.fst = l2.map Prod.fst →
      diffCount l1 l2 = 1 →
      ∃ pre d p post, l1 = pre ++ (d, p) :: post ∧ l2 = pre ++ (d, !p) :: post := by
  intro l1
  induction l1 with
  | nil =>
    intro l2 hmap hcount
    cases l2 with
    | nil => cases hcount
    | cons b t2 => simp at hmap
  | cons a t1 ih =>
    intro l2 hmap hcount
    cases l2 with
    | nil => simp at hmap
    | cons b t2 =>
      simp only [List.map_cons, List.cons.injEq] at hmap
      rw [diffCount] at hcount
      by_cases hx : (a.snd != b.snd) = true
      · have hd : diffCount t1 t2 = 0 := by rw [if_pos hx] at hcount; omega
        have hteq : t1 = t2 := diffCount_zero_eq t1 t2 hmap.2 hd
        refine ⟨[], a.fst, a.snd, t1, ?_, ?_⟩
        · simp
        · have hb : b = (a.fst, !a.snd) := by
            refine Prod.ext hmap.1.symm ?_
            cases ca : a.snd <;> cases cb : b.snd <;> simp_all
          rw [List.nil_append, ← hteq, ← hb]
      · have hd : diffCount t1 t2 = 1 := by rw [if_neg hx] at hcount; omega
        obtain ⟨pre, d, p, post, e1, e2⟩ := ih t2 hmap.2 hd
        have hsnd : a.snd = b.snd := by
          cases ca : a.snd <;> cases cb : b.snd <;> simp_all
        refine ⟨a :: pre, d, p, post, ?_, ?_⟩
        · rw [List.cons_append, e1]
        · rw [List.cons_append, ← e2, Prod.ext hmap.1 hsnd]

/-- Two sorted mergeable terms are equal except at one position, where the
index agrees and the polarity flips. -/
lemma mergeable_sorted_decomp {t1 t2 : Term} (h1 : t1.SortedIdx) (h2 : t2.SortedIdx)
    (hm : t1.mergeable t2 = true) :
    ∃ pre d p post, t1.bits = pre ++ (d, p) :: post ∧ t2.bits = pre ++ (d, !p) :: post := by
  obtain ⟨hlen, hall, hcount⟩ := (mergeable_unfold t1 t2).mp hm
  have hsub := (allFound_iff _ _).mp hall
  have hnd1 := sortedIdx_fst_nodup h1
  have hnd2 := sortedIdx_fst_nodup h2
  have hperm := fsts_perm t1.bits t2.bits hnd1 hlen hsub
  have hmap : t1.bits.map Prod.fst = t2.bits.map Prod.fst :=
    List.eq_of_perm_of_sorted hperm (List.pairwise_map.mpr h1) (List.pairwise_map.mpr h2)
  rw [countP_find_eq_diffCount _ _ hmap hnd2] at hcount
  exact diffCount_one_decomp _ _ hmap hcount

lemma find_zip_opp (d : Nat) (p q : Bool) (post : List Variable) (hpq : (p != q) = true) :
    ∀ pre : List Variable,
      (((pre ++ (d, p) :: post).zip (pre ++ (d, q) :: post)).find? fun pr =>
        pr.fst.fst == pr.snd.fst && pr.fst.snd != pr.snd.snd) = some ((d, p), (d, q)) := by
  intro pre
  induction pre with
  | nil =>
    simp only [List.nil_append, List.zip_cons_cons]
    exact List.find?_cons_of_pos _ (by simp [hpq])
  | cons a t ih =>
    simp only [List.cons_append, List.zip_cons_cons]
    rw [List.find?_cons_of_neg _ (by simp)]
    exact ih

lemma zipFindOpp_decomp (pre post : List Variable) (d : Nat) (p q : Bool)
    (hpq : (p != q) = true) :
    zipFindOpp ⟨pre ++ (d, p) :: post⟩ ⟨pre ++ (d, q) :: post⟩ = some d := by
  rw [zipFindOpp, find_zip_opp d p q post hpq pre]
  rfl

lemma removeIndex_decomp (pre post : List Variable) (d : Nat) (p : Bool)
    (hs : Term.SortedIdx ⟨pre ++ (d, p) :: post⟩) :
    Term.removeIndex ⟨pre ++ (d, p) :: post⟩ d = ⟨pre ++ post⟩ := by
  rw [Term.SortedIdx] at hs
  simp only [List.pairwise_append, List.pairwise_cons] at hs
  have hpre : ∀ v ∈ pre, v.fst ≠ d := by
    intro v hv
    exact Nat.ne_of_lt (hs.2.2 v hv (d, p) (List.mem_cons_self _ _))
  have hpost : ∀ v ∈ post, v.fst ≠ d := by
    intro v hv
    exact (Nat.ne_of_lt (hs.2.1.1 v hv)).symm
  rw [Term.removeIndex]
  congr 1
  rw [List.filter_append, List.filter_cons_of_neg (by simp)]
  rw [List.filter_eq_self.mpr fun v hv => by simpa using hpre v hv,
    List.filter_eq_self.mpr fun v hv => by simpa using hpost v hv]

lemma sortedIdx_append_removed {pre post : List Variable} {x : Variable}
    (hs : Term.SortedIdx ⟨pre ++ x :: post⟩) : Term.SortedIdx ⟨pre ++ post⟩ :=
  List.Pairwise.sublist (List.Sublist.append_left (List.sublist_cons_self x post) pre) hs

lemma boundedIdx_append_removed {pre post : List Variable} {x : Variable} {B : Nat}
    (hb : Term.BoundedIdx B ⟨pre ++ x :: post⟩) : Term.BoundedIdx B ⟨pre ++ post⟩ := by
  intro v hv
  apply hb
  simp only [List.mem_append, List.mem_cons] at hv ⊢
  tauto

lemma coversSet_merge (pre post : List Variable) (d : Nat) (p : Bool) :
    Term.coversSet ⟨pre ++ post⟩ =
      Term.coversSet ⟨pre ++ (d, p) :: post⟩ ∪ Term.coversSet ⟨pre ++ (d, !p) :: post⟩ := by
  ext f
  simp only [Term.coversSet, Term.coversF, Set.mem_union, Set.mem_setOf_eq]
  constructor
  · intro hf
    by_cases hd : f d = p
    · left
      intro v hv
      rcases List.mem_append.mp hv with h | h
      · exact hf v (List.mem_append.mpr (Or.inl h))
      · rcases List.mem_cons.mp h with rfl | h
        · exact hd
        · exact hf v (List.mem_append.mpr (Or.inr h))
    · right
      intro v hv
      rcases List.mem_append.mp hv with h | h
      · exact hf v (List.mem_append.mpr (Or.inl h))
      · rcases List.mem_cons.mp h with rfl | h
        · show f d = !p
          cases cp : p <;> cases cf : f d <;> simp_all
        · exact hf v (List.mem_append.mpr (Or.inr h))
  · rintro (hf | hf) <;>
    · intro v hv
      rcases List.mem_append.mp hv with h | h
      · exact hf v (List.mem_append.mpr (Or.inl h))
      · exact hf v (List.mem_append.mpr (Or.inr (List.mem_cons_of_mem _ h)))

/-- Everything `Equation::simplify` needs about one merge of two sorted
mergeable terms: the zip-search succeeds either way around with the same
differing index, both orders give the same merged term, the merged term is
sorted, covers exactly the union, and constrains one fewer index. -/
lemma merge_term_spec {t1 t2 : Term} (h1 : t1.SortedIdx) (h2 : t2.SortedIdx)
    (hm : t1.mergeable t2 = true) :
    ∃ d, zipFindOpp t1 t2 = some d ∧ zipFindOpp t2 t1 = some d ∧
      t1.removeIndex d = t2.removeIndex d ∧
      (t1.removeIndex d).SortedIdx ∧
      (t1.removeIndex d).coversSet = t1.coversSet ∪ t2.coversSet ∧
      (t1.removeIndex d).len + 1 = t1.len ∧
      (∀ B, t1.BoundedIdx B → (t1.removeIndex d).BoundedIdx B) := by
  obtain ⟨pre, d, p, post, e1, e2⟩ := mergeable_sorted_decomp h1 h2 hm
  obtain ⟨bits1⟩ := t1
  obtain ⟨bits2⟩ := t2
  simp only at e1 e2
  subst e1
  subst e2
  refine ⟨d, ?_, ?_, ?_, ?_, ?_, ?_, ?_⟩
  · exact zipFindOpp_decomp pre post d p (!p) (by cases p <;> rfl)
  · exact zipFindOpp_decomp pre post d (!p) p (by cases p <;> rfl)
  · rw [removeIndex_decomp pre post d p h1, removeIndex_decomp pre post d (!p) h2]
  · rw [removeIndex_decomp pre post d p h1]
    exact sortedIdx_append_removed h1
  · rw [removeIndex_decomp pre post d p h1]
    exact coversSet_merge pre post d p
  · rw [removeIndex_decomp pre post d p h1]
    simp only [Term.len, List.length_append, List.length_cons]
    omega
  · intro B hb
    rw [removeIndex_decomp pre post d p h1]
    exact boundedIdx_append_removed hb

/-! ## The scan loop of `Equation::simplify` -/

lemma sorted_default_term : (default : Term).SortedIdx := List.Pairwise.nil

lemma getD_mem_term (l : List Term) (k : Nat) (hk : k < l.length) : l.getD k default ∈ l := by
  rw [List.getD_eq_getElem l default hk]
  exact List.getElem_mem hk

lemma innerScan_some (t1 : Term) :
    ∀ (l : List Term) (i j : Nat), innerScan t1 i l = some j →
      ∃ k, k < l.length ∧ j = i + k ∧
        (t1 != l.getD k default && t1.mergeable (l.getD k default)) = true := by
  intro l
  induction l with
  | nil => intro i j h; cases h
  | cons t2 rest ih =>
    intro i j h
    rw [innerScan] at h
    by_cases hc : (t1 != t2 && t1.mergeable t2) = true
    · rw [if_pos hc] at h
      injection h with h
      subst h
      exact ⟨0, Nat.succ_pos _, (Nat.add_zero i).symm, by simpa using hc⟩
    · rw [if_neg hc] at h
      obtain ⟨k, hk, hj, hck⟩ := ih (i + 1) j h
      exact ⟨k + 1, by simpa using hk, by omega, by simpa using hck⟩

lemma scanGo_found (terms : List Term) :
    ∀ (idxs : List Nat) (st : ScanResult) (l1 d l2 : Nat),
      scanGo terms idxs st = .found l1 d l2 →
      st = .found l1 d l2 ∨
        (l1 ∈ idxs ∧ innerScan (terms.getD l1 default) 0 terms = some l2 ∧
          zipFindOpp (terms.getD l1 default) (terms.getD l2 default) = some d) := by
  intro idxs
  induction idxs with
  | nil => intro st l1 d l2 h; exact Or.inl h
  | cons i rest ih =>
    intro st l1 d l2 h
    rw [scanGo] at h
    split at h
    · rcases ih st l1 d l2 h with h' | ⟨hm, h2, h3⟩
      · exact Or.inl h'
      · exact Or.inr ⟨List.mem_cons_of_mem _ hm, h2, h3⟩
    · rename_i t2Loc hinner
      split at h
      · exact absurd h (by intro hc; cases hc)
      · rename_i dd hzip
        rcases ih _ l1 d l2 h with h' | ⟨hm, h2, h3⟩
        · injection h' with e1 e2 e3
          subst e1
          subst e2
          subst e3
          exact Or.inr ⟨List.mem_cons_self _ _, hinner, hzip⟩
        · exact Or.inr ⟨List.mem_cons_of_mem _ hm, h2, h3⟩

lemma scan_found_spec {terms : List Term} {l1 d l2 : Nat} (h : scan terms = .found l1 d l2) :
    l1 < terms.length ∧ l2 < terms.length ∧
      terms.getD l1 default ≠ terms.getD l2 default ∧
      (terms.getD l1 default).mergeable (terms.getD l2 default) = true ∧
      zipFindOpp (terms.getD l1 default) (terms.getD l2 default) = some d := by
  rcases scanGo_found terms (List.range terms.length) .notFound l1 d l2 h with h' | ⟨hm, hinner, hzip⟩
  · cases h'
  · obtain ⟨k, hk, hj, hck⟩ := innerScan_some _ terms 0 l2 hinner
    have hkl2 : l2 = k := by omega
    subst hkl2
    rw [Bool.and_eq_true, bne_iff_ne] at hck
    exact ⟨List.mem_range.mp hm, hk, hck.1, hck.2, hzip⟩

lemma scan_ne_panicked {terms : List Term} (hs : ∀ t ∈ terms, t.SortedIdx) :
    scan terms ≠ .panicked := by
  rw [scan]
  have main : ∀ (idxs : List Nat) (st : ScanResult), st ≠ .panicked →
      scanGo terms idxs st ≠ .panicked := by
    intro idxs
    induction idxs with
    | nil => intro st h; exact h
    | cons i rest ih =>
      intro st hst
      rw [scanGo]
      cases hinner : innerScan (terms.getD i default) 0 terms with
      | none => exact ih st hst
      | some t2Loc =>
        obtain ⟨k, hk, hj, hck⟩ := innerScan_some _ terms 0 t2Loc hinner
        have hkt : t2Loc = k := by omega
        subst hkt
        rw [Bool.and_eq_true] at hck
        have h1s : (terms.getD i default).SortedIdx := by
          by_cases hi : i < terms.length
          · exact hs _ (getD_mem_term terms i hi)
          · rw [List.getD_eq_default _ _ (by omega)]
            exact sorted_default_term
        have h2s : (terms.getD t2Loc default).SortedIdx := hs _ (getD_mem_term terms _ hk)
        obtain ⟨d, hzip, _⟩ := merge_term_spec h1s h2s hck.2
        show (match zipFindOpp (terms.getD i default) (terms.getD t2Loc default) with
          | none => ScanResult.panicked
          | some d => scanGo terms rest (.found i d t2Loc)) ≠ ScanResult.panicked
        rw [hzip]
        exact ih _ (by simp)
  exact main _ _ (by simp)

/-! ## Coverage bookkeeping across one merge step -/

lemma coversUnion_perm {ts ts' : List Term} (h : ts.Perm ts') : coversUnion ts = coversUnion ts' := by
  ext f
  simp only [coversUnion, Set.mem_setOf_eq]
  constructor <;> rintro ⟨t, ht, hc⟩
  · exact ⟨t, h.mem_iff.mp ht, hc⟩
  · exact ⟨t, h.mem_iff.mpr ht, hc⟩

lemma coversUnion_cons (t : Term) (ts : List Term) :
    coversUnion (t :: ts) = t.coversSet ∪ coversUnion ts := by
  ext f
  simp only [coversUnion, Term.coversSet, Set.mem_union, Set.mem_setOf_eq, List.mem_cons]
  constructor
  · rintro ⟨u, hu | hu, hc⟩
    · exact Or.inl (hu ▸ hc)
    · exact Or.inr ⟨u, hu, hc⟩
  · rintro (hc | ⟨u, hu, hc⟩)
    · exact ⟨t, Or.inl rfl, hc⟩
    · exact ⟨u, Or.inr hu, hc⟩

lemma disjCovers_symm {a b : Term} (h : a.coversSet ∩ b.coversSet = ∅) :
    b.coversSet ∩ a.coversSet = ∅ := by
  rw [Set.inter_comm]
  exact h

lemma applyMerge_length {terms : List Term} {l1 d l2 : Nat}
    (hscan : scan terms = .found l1 d l2) :
    (applyMerge terms l1 d l2).length + 1 = terms.length := by
  obtain ⟨_, hl2, _⟩ := scan_found_spec hscan
  rw [applyMerge, List.length_eraseIdx]
  rw [List.length_set]
  simp only [List.length_set, hl2, if_pos]
  omega
/-- One merge step of `Equation::simplify` keeps all terms sorted, keeps the
covered set of assignments unchanged, removes exactly one term, keeps index
bounds, and keeps pairwise-disjoint coverage. -/
lemma applyMerge_spec {terms : List Term} {l1 d l2 : Nat}
    (hscan : scan terms = .found l1 d l2) (hs : ∀ t ∈ terms, t.SortedIdx) :
    (∀ t ∈ applyMerge terms l1 d l2, t.SortedIdx) ∧
    coversUnion (applyMerge terms l1 d l2) = coversUnion terms ∧
    (∀ B, (∀ t ∈ terms, t.BoundedIdx B) → ∀ t ∈ applyMerge terms l1 d l2, t.BoundedIdx B) ∧
    (List.Pairwise (fun a b => a.coversSet ∩ b.coversSet = ∅) terms →
      List.Pairwise (fun a b => a.coversSet ∩ b.coversSet = ∅) (applyMerge terms l1 d l2)) := by
  obtain ⟨hl1, hl2, hne, hmerge, hzip⟩ := scan_found_spec hscan
  have h1s : (terms.getD l1 default).SortedIdx := hs _ (getD_mem_term terms l1 hl1)
  have h2s : (terms.getD l2 default).SortedIdx := hs _ (getD_mem_term terms l2 hl2)
  obtain ⟨dd, hzip2, _, _, hsortedm, hcovm, _, hboundm⟩ := merge_term_spec h1s h2s hmerge
  have hdd : dd = d := by
    rw [hzip] at hzip2
    exact (Option.some.inj hzip2).symm
  subst hdd
  have hll : l1 ≠ l2 := fun he => hne (he ▸ rfl)
  obtain ⟨rest, hp1, hp2⟩ :=
    merge_surgery terms default ((terms.getD l1 default).removeIndex dd) l1 l2 hl1 hl2 hll
  have hp2' : (applyMerge terms l1 dd l2).Perm
      ((terms.getD l1 default).removeIndex dd :: rest) := hp2
  have hmem_apply : ∀ t ∈ applyMerge terms l1 dd l2,
      t = (terms.getD l1 default).removeIndex dd ∨ t ∈ terms := by
    intro t ht
    have := hp2'.mem_iff.mp ht
    rcases List.mem_cons.mp this with h | h
    · exact Or.inl h
    · exact Or.inr (hp1.mem_iff.mpr (List.mem_cons_of_mem _ (List.mem_cons_of_mem _ h)))
  refine ⟨?_, ?_, ?_, ?_⟩
  · intro t ht
    rcases hmem_apply t ht with rfl | h
    · exact hsortedm
    · exact hs t h
  · rw [coversUnion_perm hp2', coversUnion_perm hp1, coversUnion_cons, coversUnion_cons,
      coversUnion_cons, hcovm, Set.union_assoc]
  · intro B hb t ht
    rcases hmem_apply t ht with rfl | h
    · exact hboundm B (hb _ (getD_mem_term terms l1 hl1))
    · exact hb t h
  · intro hdisj
    have hdisj1 := (List.Perm.pairwise_iff (fun h => disjCovers_symm h) hp1).mp hdisj
    rw [List.pairwise_cons] at hdisj1
    obtain ⟨hd1, hdisj2⟩ := hdisj1
    rw [List.pairwise_cons] at hdisj2
    obtain ⟨hd2, hdrest⟩ := hdisj2
    apply (List.Perm.pairwise_iff (fun h => disjCovers_symm h) hp2').mpr
    rw [List.pairwise_cons]
    refine ⟨?_, hdrest⟩
    intro t ht
    rw [hcovm, Set.union_inter_distrib_right, hd1 t (List.mem_cons_of_mem _ ht), hd2 t ht]
    simp

/-- Running the simplify loop with enough fuel on sorted terms: it returns
`some`, preserves the covered assignment set, sortedness, index bounds and
pairwise-disjoint coverage. -/
lemma simplifyFuel_spec :
    ∀ (fuel : Nat) (ts : List Term), ts.length ≤ fuel → (∀ t ∈ ts, t.SortedIdx) →
      ∃ ts', simplifyFuel fuel ts = some ts' ∧
        (∀ t ∈ ts', t.SortedIdx) ∧
        coversUnion ts' = coversUnion ts ∧
        (∀ B, (∀ t ∈ ts, t.BoundedIdx B) → ∀ t ∈ ts', t.BoundedIdx B) ∧
        (List.Pairwise (fun a b => a.coversSet ∩ b.coversSet = ∅) ts →
          List.Pairwise (fun a b => a.coversSet ∩ b.coversSet = ∅) ts') := by
  intro fuel
  induction fuel with
  | zero =>
    intro ts hlen hs
    have hnil : ts = [] := List.length_eq_zero.mp (by omega)
    subst hnil
    exact ⟨[], rfl, by simp, rfl, fun B hb => hb, fun h => h⟩
  | succ fuel ih =>
    intro ts hlen hs
    cases hscan : scan ts with
    | notFound =>
      refine ⟨ts, ?_, hs, rfl, fun B hb => hb, fun h => h⟩
      simp only [simplifyFuel, hscan]
    | panicked => exact absurd hscan (scan_ne_panicked hs)
    | found l1 d l2 =>
      obtain ⟨hsorted2, hcov2, hbound2, hdisj2⟩ := applyMerge_spec hscan hs
      have hlen1 := applyMerge_length hscan
      obtain ⟨ts', hres, hs', hc', hb', hd'⟩ := ih (applyMerge ts l1 d l2) (by omega) hsorted2
      refine ⟨ts', ?_, hs', by rw [hc', hcov2],
        fun B hb => hb' B (hbound2 B hb), fun h => hd' (hdisj2 h)⟩
      simp only [simplifyFuel, hscan]
      exact hres

/-- Fuel beyond the number of terms never matters: the merge recursion always
reaches its fixed point (or the panic) within `ts.length` steps. -/
lemma simplifyFuel_congr :
    ∀ (f1 f2 : Nat) (ts : List Term), ts.length ≤ f1 → ts.length ≤ f2 →
      simplifyFuel f1 ts = simplifyFuel f2 ts := by
  intro f1
  induction f1 with
  | zero =>
    intro f2 ts h1 _
    have hnil : ts = [] := List.length_eq_zero.mp (by omega)
    subst hnil
    cases f2 <;> rfl
  | succ f1 ih =>
    intro f2 ts h1 h2
    cases f2 with
    | zero =>
      have hnil : ts = [] := List.length_eq_zero.mp (by omega)
      subst hnil
      rfl
    | succ f2 =>
      cases hscan : scan ts with
      | notFound => simp only [simplifyFuel, hscan]
      | panicked => simp only [simplifyFuel, hscan]
      | found l1 d l2 =>
        simp only [simplifyFuel, hscan]
        have hlen := applyMerge_length hscan
        exact ih f2 _ (by omega) (by omega)

/-! ## Evaluation on rows versus coverage of assignments -/

lemma bit_mem_of_getD {row : List Bit} {j : Nat} (hj : j < row.length) :
    row.getD j Bit.NA ∈ row := by
  rw [List.getD_eq_getElem row Bit.NA hj]
  exact List.getElem_mem hj

lemma eval_iff_coversF {t : Term} {input : List Bit} (hb : t.BoundedIdx input.length)
    (hna : Bit.NA ∉ input) : t.eval input = true ↔ t.coversF (rowF input) := by
  have hpt : ∀ v ∈ t.bits,
      ((input.getD v.fst Bit.NA == Bit.new v.snd) = true ↔ rowF input v.fst = v.snd) := by
    intro v hv
    have hlt := hb v hv
    have hmem : input.getD v.fst Bit.NA ∈ input := bit_mem_of_getD hlt
    have hne : input.getD v.fst Bit.NA ≠ Bit.NA := fun h => hna (h ▸ hmem)
    rw [rowF]
    cases hx : input.getD v.fst Bit.NA <;> cases hs : v.snd <;> simp_all [Bit.new]
  rw [Term.eval, List.all_eq_true, Term.coversF]
  constructor
  · intro h v hv
    exact (hpt v hv).mp (h v hv)
  · intro h v hv
    exact (hpt v hv).mpr (h v hv)

lemma evalTerms_iff_mem {ts : List Term} {input : List Bit}
    (hb : ∀ t ∈ ts, t.BoundedIdx input.length) (hna : Bit.NA ∉ input) :
    evalTerms ts input = true ↔ rowF input ∈ coversUnion ts := by
  rw [evalTerms, List.any_eq_true]
  constructor
  · rintro ⟨t, ht, he⟩
    exact ⟨t, ht, (eval_iff_coversF (hb t ht) hna).mp he⟩
  · rintro ⟨t, ht, hc⟩
    exact ⟨t, ht, (eval_iff_coversF (hb t ht) hna).mpr hc⟩

lemma coversF_congr_bound {t : Term} {B : Nat} (hb : t.BoundedIdx B) {f g : Nat → Bool}
    (hfg : ∀ j < B, f j = g j) : t.coversF f ↔ t.coversF g := by
  constructor
  · intro h v hv
    rw [← hfg v.fst (hb v hv)]
    exact h v hv
  · intro h v hv
    rw [hfg v.fst (hb v hv)]
    exact h v hv

/-- A canonical assignment covered by a term: look the polarity up in the
bit list, defaulting to `false` off the constrained indices. -/
def Term.sampleF (t : Term) : Nat → Bool :=
  fun j => ((t.bits.find? fun v => v.fst == j).map Prod.snd).getD false

lemma sampleF_covers {t : Term} (h : t.SortedIdx) : t.coversF t.sampleF := by
  intro v hv
  show ((t.bits.find? fun w => w.fst == v.fst).map Prod.snd).getD false = v.snd
  rw [find_lookup_self (sortedIdx_fst_nodup h) hv]
  rfl

lemma rowF_eq_of_coversF_fullTerm {row : List Bit} {f : Nat → Bool}
    (h : (fullTerm row).coversF f) : ∀ j < row.length, f j = rowF row j := by
  intro j hj
  rw [rowF]
  exact (coversF_fullTerm_iff row f).mp h j hj

lemma row_eq_of_rowF_eq {a b : List Bit} (hna : Bit.NA ∉ a) (hnb : Bit.NA ∉ b)
    (hlen : a.length = b.length) (h : ∀ j < a.length, rowF a j = rowF b j) : a = b := by
  apply List.ext_getElem hlen
  intro j h1 h2
  have hj := h j h1
  rw [rowF, rowF, List.getD_eq_getElem a Bit.NA h1, List.getD_eq_getElem b Bit.NA h2] at hj
  have hxa : a[j] ≠ Bit.NA := fun hx => hna (hx ▸ List.getElem_mem h1)
  have hxb : b[j] ≠ Bit.NA := fun hx => hnb (hx ▸ List.getElem_mem h2)
  cases hca : a[j] <;> cases hcb : b[j] <;> simp_all

lemma fullTerm_covers_disjoint {a b : List Bit} (hna : Bit.NA ∉ a) (hnb : Bit.NA ∉ b)
    (hlen : a.length = b.length) (hne : a ≠ b) :
    (fullTerm a).coversSet ∩ (fullTerm b).coversSet = ∅ := by
  rw [Set.eq_empty_iff_forall_not_mem]
  intro f hf
  rw [Set.mem_inter_iff] at hf
  apply hne
  apply row_eq_of_rowF_eq hna hnb hlen
  intro j hj
  have h1 : f j = rowF a j := rowF_eq_of_coversF_fullTerm hf.1 j hj
  have h2 : f j = rowF b j := rowF_eq_of_coversF_fullTerm hf.2 j (hlen ▸ hj)
  rw [← h1, ← h2]

/-! ## The minterm list of `Equation::new` -/

lemma mintermList_eq_filterMap :
    ∀ (entries : List Entry) (i : Nat),
      (∀ e ∈ entries, i < e.output.length ∧ Bit.NA ∉ e.input) →
      mintermList entries i = some (entries.filterMap fun e =>
        if e.output.getD i false then some (fullTerm e.input) else none) := by
  intro entries
  induction entries with
  | nil => intro i _; rfl
  | cons e rest ih =>
    intro i h
    have he := h e (List.mem_cons_self _ _)
    have hrest := ih i fun x hx => h x (List.mem_cons_of_mem _ hx)
    rw [mintermList, if_pos he.1]
    by_cases hout : e.output.getD i false = false
    · rw [if_pos hout, hrest, List.filterMap_cons,
        if_neg (fun hc => Bool.false_ne_true (hout ▸ hc))]
    · rw [if_neg hout]
      rw [Bool.not_eq_false] at hout
      rw [compute_eq_fullTerm he.2]
      show (mintermList rest i).map (fun l => fullTerm e.input :: l) = _
      rw [hrest, List.filterMap_cons, if_pos hout]
      rfl

lemma coversUnion_minterms (entries : List Entry) (i : Nat) :
    coversUnion (entries.filterMap fun e =>
        if e.output.getD i false then some (fullTerm e.input) else none) =
      {f | ∃ e ∈ entries, e.output.getD i false = true ∧ (fullTerm e.input).coversF f} := by
  ext f
  simp only [coversUnion, Set.mem_setOf_eq, List.mem_filterMap]
  constructor
  · rintro ⟨t, ⟨e, he, hfe⟩, hc⟩
    by_cases hout : e.output.getD i false = true
    · rw [if_pos hout] at hfe
      injection hfe with hfe
      subst hfe
      exact ⟨e, he, hout, hc⟩
    · rw [if_neg hout] at hfe
      cases hfe
  · rintro ⟨e, he, hout, hc⟩
    exact ⟨fullTerm e.input, ⟨e, he, by rw [if_pos hout]⟩, hc⟩

lemma minterms_sorted (entries : List Entry) (i : Nat) :
    ∀ t ∈ (entries.filterMap fun e =>
        if e.output.getD i false then some (fullTerm e.input) else none), t.SortedIdx := by
  intro t ht
  rw [List.mem_filterMap] at ht
  obtain ⟨e, _, hfe⟩ := ht
  by_cases hout : e.output.getD i false = true
  · rw [if_pos hout] at hfe
    injection hfe with hfe
    subst hfe
    exact fullTerm_sortedIdx _
  · rw [if_neg hout] at hfe
    cases hfe

lemma minterms_bounded (entries : List Entry) (i B : Nat)
    (hB : ∀ e ∈ entries, e.input.length = B) :
    ∀ t ∈ (entries.filterMap fun e =>
        if e.output.getD i false then some (fullTerm e.input) else none), t.BoundedIdx B := by
  intro t ht
  rw [List.mem_filterMap] at ht
  obtain ⟨e, he, hfe⟩ := ht
  by_cases hout : e.output.getD i false = true
  · rw [if_pos hout] at hfe
    injection hfe with hfe
    subst hfe
    exact (hB e he) ▸ fullTerm_boundedIdx e.input
  · rw [if_neg hout] at hfe
    cases hfe

lemma minterms_disjoint (entries : List Entry) (i B : Nat)
    (hB : ∀ e ∈ entries, e.input.length = B)
    (hNA : ∀ e ∈ entries, Bit.NA ∉ e.input)
    (hnodup : (entries.map Entry.input).Nodup) :
    List.Pairwise (fun a b => a.coversSet ∩ b.coversSet = ∅)
      (entries.filterMap fun e =>
        if e.output.getD i false then some (fullTerm e.input) else none) := by
  rw [List.pairwise_filterMap]
  have hpw : entries.Pairwise fun a b => a.input ≠ b.input := List.pairwise_map.mp hnodup
  refine List.Pairwise.imp_of_mem ?_ hpw
  intro a b ha hb hne t ht t' ht'
  by_cases houta : a.output.getD i false = true
  · by_cases houtb : b.output.getD i false = true
    · rw [if_pos houta, Option.mem_def] at ht
      rw [if_pos houtb, Option.mem_def] at ht'
      injection ht with ht
      injection ht' with ht'
      subst ht
      subst ht'
      exact fullTerm_covers_disjoint (hNA a ha) (hNA b hb) (by rw [hB a ha, hB b hb]) hne
    · rw [if_neg houtb] at ht'
      cases ht'
  · rw [if_neg houta] at ht
    cases ht

/-- The required-minterm set of output `i`: assignments matching some table
row whose output bit `i` is 1. -/
def requiredSet (tbl : Truth) (i : Nat) : Set (Nat → Bool) :=
  {f | ∃ e ∈ tbl.table, e.output.getD i false = true ∧ (fullTerm e.input).coversF f}

/-- Full pipeline on a structurally valid table: `Equation::new` succeeds,
`Equation::simplify` succeeds (never panics), and the simplified term list is
sorted, index-bounded, covers exactly the required minterm set, and (when the
input patterns are distinct) has pairwise-disjoint coverage. -/
lemma pipeline_spec (tbl : Truth) (i : Nat) (vn : String) (B : Nat)
    (hB : ∀ e ∈ tbl.table, e.input.length = B)
    (hNA : ∀ e ∈ tbl.table, Bit.NA ∉ e.input)
    (hout : ∀ e ∈ tbl.table, i < e.output.length) :
    ∃ e1 ts', Equation.new tbl i vn = some e1 ∧
      Equation.simplify e1 = some ⟨i, ts', vn⟩ ∧
      (∀ t ∈ ts', t.SortedIdx) ∧ (∀ t ∈ ts', t.BoundedIdx B) ∧
      coversUnion ts' = requiredSet tbl i ∧
      ((tbl.table.map Entry.input).Nodup →
        List.Pairwise (fun a b => a.coversSet ∩ b.coversSet = ∅) ts') := by
  have hml := mintermList_eq_filterMap tbl.table i fun e he => ⟨hout e he, hNA e he⟩
  set ts0 := tbl.table.filterMap fun e =>
    if e.output.getD i false then some (fullTerm e.input) else none with hts0
  have hnew : Equation.new tbl i vn = some ⟨i, ts0, vn⟩ := by
    rw [Equation.new, hml]
    rfl
  have hs0 : ∀ t ∈ ts0, t.SortedIdx := minterms_sorted tbl.table i
  obtain ⟨ts', hres, hs', hc', hb', hd'⟩ :=
    simplifyFuel_spec ts0.length ts0 (Nat.le_refl _) hs0
  refine ⟨⟨i, ts0, vn⟩, ts', hnew, ?_, hs', ?_, ?_, ?_⟩
  · rw [Equation.simplify]
    show (simplifyTerms ts0).map _ = _
    rw [simplifyTerms, hres]
    rfl
  · exact hb' B (minterms_bounded tbl.table i B hB)
  · rw [hc', coversUnion_minterms tbl.table i]
    rfl
  · intro hnodup
    exact hd' (minterms_disjoint tbl.table i B hB hNA hnodup)

/-! ## Claim theorems -/

/-- Claim C1: for every table with uniform `NA`-free input rows of width `B`,
uniform output width `O` with `i < O`, and exactly one entry per distinct
input pattern, the equation built for output `i` and then simplified exists
(no panic) and evaluates on every table row `r` (OR over terms, a term true
iff every index it constrains matches `r`'s input bit there) to exactly
`r.output[i]`. -/
theorem c1_soundness (tbl : Truth) (i B O : Nat) (vn : String)
    (hB : ∀ e ∈ tbl.table, e.input.length = B)
    (hNA : ∀ e ∈ tbl.table, Bit.NA ∉ e.input)
    (hO : ∀ e ∈ tbl.table, e.output.length = O)
    (hi : i < O)
    (hnodup : (tbl.table.map Entry.input).Nodup)
    (r : Entry) (hr : r ∈ tbl.table) :
    ∃ e1 e2, Equation.new tbl i vn = some e1 ∧ Equation.simplify e1 = some e2 ∧
      evalTerms e2.terms r.input = r.output.getD i false := by
  have hout : ∀ e ∈ tbl.table, i < e.output.length := fun e he => (hO e he) ▸ hi
  obtain ⟨e1, ts', hnew, hsimp, hs', hb', hcov, hdisj⟩ := pipeline_spec tbl i vn B hB hNA hout
  refine ⟨e1, ⟨i, ts', vn⟩, hnew, hsimp, ?_⟩
  show evalTerms ts' r.input = r.output.getD i false
  have hbr : ∀ t ∈ ts', t.BoundedIdx r.input.length := by
    rw [hB r hr]
    exact hb'
  have hiff := evalTerms_iff_mem hbr (hNA r hr)
  cases hv : r.output.getD i false with
  | true =>
    rw [hiff, hcov]
    exact ⟨r, hr, hv, (coversF_fullTerm_iff _ _).mpr fun j hj => rfl⟩
  | false =>
    cases he : evalTerms ts' r.input with
    | false => rfl
    | true =>
      exfalso
      have hmem := hiff.mp he
      rw [hcov] at hmem
      obtain ⟨ex, hex, houtx, hcovf⟩ := hmem
      have hroweq : r.input = ex.input := by
        apply row_eq_of_rowF_eq (hNA r hr) (hNA ex hex) (by rw [hB r hr, hB ex hex])
        intro j hj
        exact rowF_eq_of_coversF_fullTerm hcovf j (by rw [hB ex hex, ← hB r hr]; exact hj)
      have hxr : ex = r := List.inj_on_of_nodup_map hnodup hex hr hroweq.symm
      rw [hxr, hv] at houtx
      exact Bool.false_ne_true houtx

/-- Witness for C1 at a concrete one-bit table. -/
theorem c1_soundness_witness :
    ∃ e1 e2, Equation.new ⟨[⟨[Bit.Off], [true]⟩, ⟨[Bit.On], [false]⟩]⟩ 0 "w" = some e1 ∧
      Equation.simplify e1 = some e2 ∧
      evalTerms e2.terms (⟨[Bit.Off], [true]⟩ : Entry).input =
        (⟨[Bit.Off], [true]⟩ : Entry).output.getD 0 false :=
  c1_soundness ⟨[⟨[Bit.Off], [true]⟩, ⟨[Bit.On], [false]⟩]⟩ 0 1 1 "w"
    (by decide) (by decide) (by decide) (by decide) (by decide) ⟨[Bit.Off], [true]⟩ (by decide)

/-- Claim C4: on a valid table, no term of the simplified equation is
redundant: removing any single term changes the evaluated result on at least
one table row whose output bit `i` is 1. -/
theorem c4_no_redundant_term (tbl : Truth) (i B O : Nat) (vn : String)
    (hB : ∀ e ∈ tbl.table, e.input.length = B)
    (hNA : ∀ e ∈ tbl.table, Bit.NA ∉ e.input)
    (hO : ∀ e ∈ tbl.table, e.output.length = O)
    (hi : i < O)
    (hnodup : (tbl.table.map Entry.input).Nodup)
    (e1 e2 : Equation)
    (hnew : Equation.new tbl i vn = some e1)
    (hsimp : Equation.simplify e1 = some e2)
    (k : Nat) (hk : k < e2.terms.length) :
    ∃ r ∈ tbl.table, r.output.getD i false = true ∧
      evalTerms (e2.terms.eraseIdx k) r.input ≠ evalTerms e2.terms r.input := by
  have hout : ∀ e ∈ tbl.table, i < e.output.length := fun e he => (hO e he) ▸ hi
  obtain ⟨e1', ts', hnew', hsimp', hs', hb', hcov, hdisj⟩ := pipeline_spec tbl i vn B hB hNA hout
  have he1 : e1 = e1' := by
    rw [hnew] at hnew'
    exact Option.some.inj hnew'
  subst he1
  have he2 : e2 = ⟨i, ts', vn⟩ := by
    rw [hsimp] at hsimp'
    exact Option.some.inj hsimp'
  subst he2
  replace hk : k < ts'.length := hk
  have htkmem : ts'.getD k default ∈ ts' := getD_mem_term ts' k hk
  have hf : (ts'.getD k default).coversF (ts'.getD k default).sampleF :=
    sampleF_covers (hs' _ htkmem)
  have hmemreq : (ts'.getD k default).sampleF ∈ requiredSet tbl i := by
    rw [← hcov]
    exact ⟨ts'.getD k default, htkmem, hf⟩
  obtain ⟨ex, hex, houtx, hcovf⟩ := hmemreq
  refine ⟨ex, hex, houtx, ?_⟩
  show evalTerms (ts'.eraseIdx k) ex.input ≠ evalTerms ts' ex.input
  have hagree : ∀ j < B, (ts'.getD k default).sampleF j = rowF ex.input j := by
    intro j hj
    exact rowF_eq_of_coversF_fullTerm hcovf j (by rw [hB ex hex]; exact hj)
  have hdisj2 := hdisj hnodup
  have hbr : ∀ t ∈ ts', t.BoundedIdx ex.input.length := by
    rw [hB ex hex]
    exact hb'
  have hperm := eraseIdx_cons_perm ts' k default hk
  have htrue : evalTerms ts' ex.input = true := by
    rw [evalTerms_iff_mem hbr (hNA ex hex)]
    refine ⟨ts'.getD k default, htkmem, ?_⟩
    exact (coversF_congr_bound (hb' _ htkmem) hagree).mp hf
  have hfalse : evalTerms (ts'.eraseIdx k) ex.input = false := by
    cases hev : evalTerms (ts'.eraseIdx k) ex.input with
    | false => rfl
    | true =>
      exfalso
      have hbr2 : ∀ t ∈ ts'.eraseIdx k, t.BoundedIdx ex.input.length := fun t ht =>
        hbr t (hperm.mem_iff.mpr (List.mem_cons_of_mem _ ht))
      obtain ⟨t, ht, hcovt⟩ := (evalTerms_iff_mem hbr2 (hNA ex hex)).mp hev
      have htmem : t ∈ ts' := hperm.mem_iff.mpr (List.mem_cons_of_mem _ ht)
      have hpw2 := (List.Perm.pairwise_iff (fun h => disjCovers_symm h) hperm).mp hdisj2
      rw [List.pairwise_cons] at hpw2
      have hdisjt := hpw2.1 t ht
      have hcovt2 : t.coversF (ts'.getD k default).sampleF :=
        (coversF_congr_bound (hb' t htmem) hagree).mpr hcovt
      have hinboth : (ts'.getD k default).sampleF ∈
          (ts'.getD k default).coversSet ∩ t.coversSet := ⟨hf, hcovt2⟩
      rw [hdisjt] at hinboth
      exact hinboth
  rw [htrue, hfalse]
  exact Bool.false_ne_true

/-- Witness for C4 at a concrete one-bit table. -/
theorem c4_no_redundant_term_witness :
    ∃ r ∈ (⟨[⟨[Bit.Off], [true]⟩, ⟨[Bit.On], [false]⟩]⟩ : Truth).table,
      r.output.getD 0 false = true ∧
      evalTerms (((⟨0, [⟨[(0, false)]⟩], "w"⟩ : Equation).terms.eraseIdx 0)) r.input ≠
        evalTerms (⟨0, [⟨[(0, false)]⟩], "w"⟩ : Equation).terms r.input :=
  c4_no_redundant_term ⟨[⟨[Bit.Off], [true]⟩, ⟨[Bit.On], [false]⟩]⟩ 0 1 1 "w"
    (by decide) (by decide) (by decide) (by decide) (by decide)
    ⟨0, [⟨[(0, false)]⟩], "w"⟩ ⟨0, [⟨[(0, false)]⟩], "w"⟩ (by decide) (by decide) 0 (by decide)

/-! ## Validation behaviour of `equations` and `main` (claim C5) -/

lemma eqList_isSome (truth : Truth) (outvars : List String) :
    ∀ idxs : List Nat, (eqList truth outvars idxs).isSome = true ↔
      ∀ b ∈ idxs, (Equation.new truth b (outvars.getD b "")).isSome = true := by
  intro idxs
  induction idxs with
  | nil => simp [eqList]
  | cons b rest ih =>
    rw [eqList]
    cases hb : Equation.new truth b (outvars.getD b "") with
    | none =>
      simp only [Option.isSome_none, Bool.false_eq_true, false_iff]
      intro hc
      have := hc b (List.mem_cons_self _ _)
      rw [hb] at this
      cases this
    | some e =>
      have hmap : (Option.map (fun l => e :: l) (eqList truth outvars rest)).isSome =
          (eqList truth outvars rest).isSome := by
        cases eqList truth outvars rest <;> rfl
      rw [hmap, ih]
      constructor
      · intro h c hc
        rcases List.mem_cons.mp hc with rfl | hc
        · rw [hb]; rfl
        · exact h c hc
      · intro h c hc
        exact h c (List.mem_cons_of_mem _ hc)

/-- Claim C5 (counterexample): a table with a duplicate input pattern passes
every check the program performs — the width and row-count checks in `main`
and the `assert!`s in `equations` — and a full equation set is produced; no
structural error is raised for the duplicate. -/
theorem c5_counterexample :
    ¬ ((⟨[⟨[Bit.Off], [true]⟩, ⟨[Bit.Off], [false]⟩]⟩ : Truth).table.map Entry.input).Nodup ∧
    mainLenCheck ⟨[⟨[Bit.Off], [true]⟩, ⟨[Bit.Off], [false]⟩]⟩ 1 = true ∧
    mainCountCheck ⟨[⟨[Bit.Off], [true]⟩, ⟨[Bit.Off], [false]⟩]⟩ 1 = true ∧
    (equations ⟨[⟨[Bit.Off], [true]⟩, ⟨[Bit.Off], [false]⟩]⟩ ["x"]).isSome = true := by
  decide

/-- Claim C5 (amended): before minimization, `main` checks each row's input
width and that the row count is `2^B`, and `equations` checks non-emptiness,
uniform input/output vector lengths and that the output arity matches the
declared output variables; any of those violations yields an error and no
equation set.  Input-pattern uniqueness is NOT checked: `equations` succeeds
iff the explicit checks pass, duplicates included. -/
theorem c5_amended (truth : Truth) (outvars : List String)
    (hNA : ∀ e ∈ truth.table, Bit.NA ∉ e.input) :
    (equations truth outvars).isSome = true ↔
      (truth.table ≠ [] ∧
        (∀ e ∈ truth.table,
          e.input.length = (truth.table.headD default).input.length ∧
          e.output.length = (truth.table.headD default).output.length) ∧
        (truth.table.headD default).output.length = outvars.length) := by
  rw [equations]
  by_cases hemp : truth.table.isEmpty
  · rw [if_pos hemp]
    rw [List.isEmpty_iff] at hemp
    simp [hemp]
  · rw [if_neg hemp]
    have hne : truth.table ≠ [] := fun h => hemp (List.isEmpty_iff.mpr h)
    by_cases hall : (truth.table.all fun e =>
        e.input.length == (truth.table.headD default).input.length &&
        e.output.length == (truth.table.headD default).output.length) = true
    · rw [if_neg (by rw [hall]; simp)]
      have hallp : ∀ e ∈ truth.table,
          e.input.length = (truth.table.headD default).input.length ∧
          e.output.length = (truth.table.headD default).output.length := by
        rw [List.all_eq_true] at hall
        intro e he
        simpa using hall e he
      by_cases hlen : (truth.table.headD default).output.length = outvars.length
      · rw [if_neg (fun hc => absurd hlen (bne_iff_ne.mp hc))]
        constructor
        · intro _
          exact ⟨hne, hallp, hlen⟩
        · intro _
          rw [eqList_isSome]
          intro b hb
          rw [Equation.new]
          have hsome : (mintermList truth.table b).isSome = true := by
            rw [mintermList_eq_filterMap truth.table b ?_]
            · rfl
            · intro e he
              refine ⟨?_, hNA e he⟩
              rw [(hallp e he).2]
              exact List.mem_range.mp hb
          obtain ⟨l, hl⟩ := Option.isSome_iff_exists.mp hsome
          rw [hl]
          rfl
      · rw [if_pos (bne_iff_ne.mpr hlen)]
        simp only [Option.isSome_none, Bool.false_eq_true, false_iff]
        intro hc
        exact hlen hc.2.2
    · rw [if_pos (by rw [Bool.not_eq_true] at hall; rw [hall]; rfl)]
      have hnall : ¬ ∀ e ∈ truth.table,
          e.input.length = (truth.table.headD default).input.length ∧
          e.output.length = (truth.table.headD default).output.length := by
        intro hc
        apply hall
        rw [List.all_eq_true]
        intro e he
        simp [(hc e he).1, (hc e he).2]
      simp only [Option.isSome_none, Bool.false_eq_true, false_iff]
      intro hc
      exact hnall hc.2.1

/-! ## Symmetry of `mergeable` on duplicate-free terms (claim C3) -/

/-- Whether the polarities of index `i` differ between two terms (looked up
with the same first-match rule `mergeable` uses). -/
def polDiff (x y : Term) : Nat → Bool := fun i =>
  match x.bits.find? fun v => v.fst == i, y.bits.find? fun w => w.fst == i with
  | some v, some w => v.snd != w.snd
  | _, _ => false

lemma polDiff_comm (x y : Term) (i : Nat) : polDiff x y i = polDiff y x i := by
  rw [polDiff, polDiff]
  cases x.bits.find? fun v => v.fst == i <;>
    cases y.bits.find? fun w => w.fst == i <;>
    simp [bool_bne_comm]

lemma countP_find_eq_polDiff {x y : Term} (hnx : (x.bits.map Prod.fst).Nodup)
    (hmem : ∀ i ∈ x.bits.map Prod.fst, i ∈ y.bits.map Prod.fst) :
    (x.bits.countP fun v =>
      match y.bits.find? fun w => w.fst == v.fst with
      | some w => w.snd != v.snd
      | none => false)
    = (x.bits.map Prod.fst).countP (polDiff x y) := by
  rw [List.countP_map]
  apply List.countP_congr
  intro v hv
  have hfx : x.bits.find? (fun w => w.fst == v.fst) = some v := find_lookup_self hnx hv
  cases hfy : y.bits.find? (fun w => w.fst == v.fst) with
  | none =>
    exfalso
    have hvm : v.fst ∈ y.bits.map Prod.fst := hmem _ (List.mem_map.mpr ⟨v, hv, rfl⟩)
    rw [List.mem_map] at hvm
    obtain ⟨w, hw, hweq⟩ := hvm
    have hiss : (y.bits.find? fun w => w.fst == v.fst).isSome = true :=
      List.find?_isSome.mpr ⟨w, hw, by simpa using hweq⟩
    rw [hfy] at hiss
    cases hiss
  | some w =>
    show (w.snd != v.snd) = true ↔ (polDiff x y ∘ Prod.fst) v = true
    show (w.snd != v.snd) = true ↔ polDiff x y v.fst = true
    rw [polDiff]
    simp only [hfx, hfy]
    cases cv : v.snd <;> cases cw : w.snd <;> simp

/-- Claim C3 (amended): on terms whose bit lists mention each index at most
once — the only terms the program ever builds — `mergeable` is symmetric. -/
theorem c3_amended (a b : Term) (hna : (a.bits.map Prod.fst).Nodup)
    (hnb : (b.bits.map Prod.fst).Nodup) : a.mergeable b = b.mergeable a := by
  have himp : ∀ (x y : Term), (x.bits.map Prod.fst).Nodup → (y.bits.map Prod.fst).Nodup →
      x.mergeable y = true → y.mergeable x = true := by
    intro x y hnx hny hm
    obtain ⟨hlen, hall, hcount⟩ := (mergeable_unfold x y).mp hm
    have hsub := (allFound_iff _ _).mp hall
    have hperm := fsts_perm x.bits y.bits hnx hlen hsub
    rw [mergeable_unfold]
    refine ⟨hlen.symm, ?_, ?_⟩
    · rw [allFound_iff]
      intro i hi
      exact hperm.mem_iff.mpr hi
    · rw [countP_find_eq_polDiff hny fun i hi => hperm.mem_iff.mpr hi]
      rw [countP_find_eq_polDiff hnx fun i hi => hperm.mem_iff.mp hi] at hcount
      have e1 : (y.bits.map Prod.fst).countP (polDiff y x) =
          (y.bits.map Prod.fst).countP (polDiff x y) :=
        List.countP_congr fun i _ => by rw [polDiff_comm y x i]
      rw [e1, ← hperm.countP_eq (polDiff x y)]
      exact hcount
  cases hx : a.mergeable b <;> cases hy : b.mergeable a
  · rfl
  · have := himp b a hnb hna hy
    rw [hx] at this
    cases this
  · have := himp a b hna hnb hx
    rw [hy] at this
    cases this
  · rfl

/-- Witness for the amended C3 at concrete duplicate-free terms. -/
theorem c3_amended_witness :
    (Term.mk [(0, true), (1, false)]).mergeable (Term.mk [(0, false), (1, false)]) =
      (Term.mk [(0, false), (1, false)]).mergeable (Term.mk [(0, true), (1, false)]) :=
  c3_amended (Term.mk [(0, true), (1, false)]) (Term.mk [(0, false), (1, false)])
    (by simp) (by simp)

/-- Claim C3 (counterexample): for raw bit lists — here one with a duplicated
index — `mergeable` is not symmetric. -/
theorem c3_counterexample :
    (Term.mk [(0, true), (0, false)]).mergeable (Term.mk [(0, false), (1, true)]) = true ∧
    (Term.mk [(0, false), (1, true)]).mergeable (Term.mk [(0, true), (0, false)]) = false := by
  decide

/-- Claim C2 (amended): for two terms in strictly increasing index order (the
shape `Term::compute` produces and `remove_index` preserves), if
`mergeable(a,b)` then the zip search of `simplify` finds the single differing
index `d` in either argument order, removing `d` from either term gives the
same merged term, the merged term covers exactly `covers(a) ∪ covers(b)`, and
it constrains exactly one fewer index than `a`. -/
theorem c2_amended (a b : Term) (ha : a.SortedIdx) (hb : b.SortedIdx)
    (hm : a.mergeable b = true) :
    ∃ d, zipFindOpp a b = some d ∧ zipFindOpp b a = some d ∧
      a.removeIndex d = b.removeIndex d ∧
      (a.removeIndex d).coversSet = a.coversSet ∪ b.coversSet ∧
      (a.removeIndex d).len + 1 = a.len := by
  obtain ⟨d, h1, h2, h3, _, h5, h6, _⟩ := merge_term_spec ha hb hm
  exact ⟨d, h1, h2, h3, h5, h6⟩

/-- Witness for the amended C2 at concrete sorted terms. -/
theorem c2_amended_witness :
    ∃ d, zipFindOpp (Term.mk [(0, false), (1, false)]) (Term.mk [(0, false), (1, true)]) =
        some d ∧
      zipFindOpp (Term.mk [(0, false), (1, true)]) (Term.mk [(0, false), (1, false)]) =
        some d ∧
      (Term.mk [(0, false), (1, false)]).removeIndex d =
        (Term.mk [(0, false), (1, true)]).removeIndex d ∧
      ((Term.mk [(0, false), (1, false)]).removeIndex d).coversSet =
        (Term.mk [(0, false), (1, false)]).coversSet ∪
          (Term.mk [(0, false), (1, true)]).coversSet ∧
      ((Term.mk [(0, false), (1, false)]).removeIndex d).len + 1 =
        (Term.mk [(0, false), (1, false)]).len :=
  c2_amended (Term.mk [(0, false), (1, false)]) (Term.mk [(0, false), (1, true)])
    (by rw [Term.SortedIdx]; simp) (by rw [Term.SortedIdx]; simp) (by decide)

/-- Claim C2 (counterexample): for a raw term with a duplicated index,
removing the index found by the zip search does not remove exactly one
constrained position, and the result covers more than `covers(a) ∪
covers(b)`. -/
theorem c2_counterexample :
    (Term.mk [(1, true), (1, false)]).mergeable (Term.mk [(1, false), (2, true)]) = true ∧
    zipFindOpp (Term.mk [(1, true), (1, false)]) (Term.mk [(1, false), (2, true)]) = some 1 ∧
    ((Term.mk [(1, true), (1, false)]).removeIndex 1).len + 1 ≠
      (Term.mk [(1, true), (1, false)]).len ∧
    (fun _ => true) ∈ ((Term.mk [(1, true), (1, false)]).removeIndex 1).coversSet ∧
    (fun _ => true) ∉
      ((Term.mk [(1, true), (1, false)]).coversSet ∪
        (Term.mk [(1, false), (2, true)]).coversSet) := by
  refine ⟨by decide, by decide, by decide, ?_, ?_⟩
  · show Term.coversF ((Term.mk [(1, true), (1, false)]).removeIndex 1) (fun _ => true)
    intro v hv
    rw [show ((Term.mk [(1, true), (1, false)]).removeIndex 1).bits = [] from rfl] at hv
    cases hv
  · intro hmem
    rcases hmem with h | h
    · have hc : Term.coversF (Term.mk [(1, true), (1, false)]) (fun _ => true) := h
      have := hc (1, false) (by simp)
      cases this
    · have hc : Term.coversF (Term.mk [(1, false), (2, true)]) (fun _ => true) := h
      have := hc (1, false) (by simp)
      cases this

/-! ## Scenario A (claim C6) -/

/-- The 3-input, 2-output example table from the source comments and tests. -/
def scenarioTable : Truth :=
  ⟨[⟨[Bit.Off, Bit.Off, Bit.Off], [false, true]⟩,
    ⟨[Bit.Off, Bit.Off, Bit.On ], [true, false]⟩,
    ⟨[Bit.Off, Bit.On , Bit.Off], [true, true]⟩,
    ⟨[Bit.Off, Bit.On , Bit.On ], [false, false]⟩,
    ⟨[Bit.On , Bit.Off, Bit.Off], [true, true]⟩,
    ⟨[Bit.On , Bit.Off, Bit.On ], [false, true]⟩,
    ⟨[Bit.On , Bit.On , Bit.Off], [true, true]⟩,
    ⟨[Bit.On , Bit.On , Bit.On ], [false, false]⟩]⟩

/-- The eight 3-bit inputs, in table order 000..111. -/
def scenarioInputs : List (List Bit) :=
  [[Bit.Off, Bit.Off, Bit.Off], [Bit.Off, Bit.Off, Bit.On],
   [Bit.Off, Bit.On , Bit.Off], [Bit.Off, Bit.On , Bit.On],
   [Bit.On , Bit.Off, Bit.Off], [Bit.On , Bit.Off, Bit.On],
   [Bit.On , Bit.On , Bit.Off], [Bit.On , Bit.On , Bit.On]]

/-- Claim C6: on Scenario A the simplified equation for output `x` evaluates
to true exactly on `{001, 010, 100, 110}` and that for output `y` exactly on
`{000, 010, 100, 101, 110}`. -/
theorem c6_scenarioA :
    (((Equation.new scenarioTable 0 "x").bind Equation.simplify).map fun e =>
        scenarioInputs.map fun inp => evalTerms e.terms inp) =
      some [false, true, true, false, true, false, true, false] ∧
    (((Equation.new scenarioTable 1 "y").bind Equation.simplify).map fun e =>
        scenarioInputs.map fun inp => evalTerms e.terms inp) =
      some [true, false, true, false, true, true, true, false] := by
  decide

/-- Claim C7: the merge recursion of `Equation::simplify` reaches its fixed
point within `terms.length` steps on every finite term list: giving the
recursion any fuel bound at least the list length produces the same result
as `simplifyTerms` (which uses exactly `terms.length`). -/
theorem c7_termination (ts : List Term) (fuel : Nat) (h : ts.length ≤ fuel) :
    simplifyFuel fuel ts = simplifyTerms ts :=
  simplifyFuel_congr fuel ts.length ts h (Nat.le_refl _)

/-- Witness for C7 at a concrete list and surplus fuel. -/
theorem c7_termination_witness :
    simplifyFuel 5 [Term.mk [(0, true)]] = simplifyTerms [Term.mk [(0, true)]] :=
  c7_termination [Term.mk [(0, true)]] 5 (by decide)

/-! ## Rendering (claim C8) -/

lemma option_bind_none {α β : Type} (f : α → Option β) : ((none : Option α) >>= f) = none :=
  rfl

lemma option_bind_some {α β : Type} (a : α) (f : α → Option β) :
    ((some a : Option α) >>= f) = f a :=
  rfl

lemma renderAux_isSome :
    ∀ (l : List Variable) (acc : String),
      (l.foldlM (fun acc v => (renderVar v).map (fun s => acc ++ s)) acc).isSome = true ↔
        ∀ v ∈ l, v.fst < 26 := by
  intro l
  induction l with
  | nil => intro acc; simp
  | cons v rest ih =>
    intro acc
    rw [List.foldlM_cons]
    cases hr : renderVar v with
    | none =>
      have hge : 26 ≤ v.fst := by
        rw [renderVar] at hr
        cases hg : varNames.get? v.fst with
        | some c => rw [hg] at hr; cases hr
        | none => exact List.get?_eq_none.mp hg
      simp only [hr, Option.map_none', option_bind_none, Option.isSome_none,
        Bool.false_eq_true, false_iff]
      intro hc
      exact absurd (hc v (List.mem_cons_self _ _)) (by omega)
    | some s =>
      have hlt : v.fst < 26 := by
        by_contra hge
        rw [renderVar] at hr
        rw [List.get?_eq_none.mpr (by simpa using Nat.le_of_not_lt hge)] at hr
        cases hr
      simp only [hr, Option.map_some', option_bind_some]
      rw [ih (acc ++ s)]
      constructor
      · intro h u hu
        rcases List.mem_cons.mp hu with rfl | hu
        · exact hlt
        · exact h u hu
      · intro h u hu
        exact h u (List.mem_cons_of_mem _ hu)

/-- Claim C8 (amended): rendering a term uses the fixed 26-letter alphabet
`a..z`; it succeeds iff every constrained variable index is below 26, and on
any larger index the `assert!` in the `Display` impl fires (modelled as
`none`) — there is no caller-supplied index-to-name lookup. -/
theorem c8_amended (t : Term) : (Term.render t).isSome = true ↔ ∀ v ∈ t.bits, v.fst < 26 :=
  renderAux_isSome t.bits ""

/-- Claim C8 (counterexample): a term constraining variable index 26 makes
rendering fail the assertion rather than succeed or raise a typed error. -/
theorem c8_counterexample : Term.render (Term.mk [(26, true)]) = none := by
  decide

/-- Claim C9: `Term::compute` fails (panics, modelled `none`) iff some
position of the row is the don't-care bit `NA`; on an `NA`-free row of
length `B` it returns the term constraining every index `0..B-1` with the
row's polarity there. -/
theorem c9_compute (row : List Bit) :
    (Term.compute row = none ↔ Bit.NA ∈ row) ∧
    (Bit.NA ∉ row →
      Term.compute row =
        some ⟨(List.range row.length).map fun j => (j, row.getD j Bit.NA == Bit.On)⟩) :=
  ⟨compute_eq_none_iff row, fun h => compute_eq_fullTerm h⟩

/-- Witness for C9 at a concrete fully specified row. -/
theorem c9_compute_witness :
    Term.compute [Bit.On, Bit.Off] = some ⟨[(0, true), (1, false)]⟩ :=
  (c9_compute [Bit.On, Bit.Off]).2 (by decide)

/-- Claim C10: for terms in strictly increasing index order with one entry
per index (as produced by `Term::compute` and preserved by `remove_index`),
`mergeable` implies the positional zip of the bit lists contains a pair with
equal index and opposite polarity; hence on equations built by
`Equation::new` from a table, `Equation::simplify` never reaches the
`"mergeable but no opposite bits?"` panic and returns a result. -/
theorem c10_zip_panic_unreachable :
    (∀ t1 t2 : Term, t1.SortedIdx → t2.SortedIdx → t1.mergeable t2 = true →
      ∃ pr ∈ t1.bits.zip t2.bits, pr.fst.fst = pr.snd.fst ∧ pr.fst.snd = !pr.snd.snd) ∧
    (∀ (tbl : Truth) (i : Nat) (vn : String),
      (∀ e ∈ tbl.table, Bit.NA ∉ e.input) → (∀ e ∈ tbl.table, i < e.output.length) →
      ∃ e1 e2, Equation.new tbl i vn = some e1 ∧ Equation.simplify e1 = some e2) := by
  constructor
  · intro t1 t2 h1 h2 hm
    obtain ⟨pre, d, p, post, e1, e2⟩ := mergeable_sorted_decomp h1 h2 hm
    have hmem : ((d, p), (d, !p)) ∈ t1.bits.zip t2.bits := by
      rw [e1, e2, List.zip_append rfl, List.zip_cons_cons]
      exact List.mem_append_right _ (List.mem_cons_self _ _)
    exact ⟨((d, p), (d, !p)), hmem, rfl, by cases p <;> rfl⟩
  · intro tbl i vn hNA hout
    have hml := mintermList_eq_filterMap tbl.table i fun e he => ⟨hout e he, hNA e he⟩
    have hnew : Equation.new tbl i vn = some ⟨i, tbl.table.filterMap fun e =>
        if e.output.getD i false then some (fullTerm e.input) else none, vn⟩ := by
      rw [Equation.new, hml]
      rfl
    obtain ⟨ts', hres, _⟩ :=
      simplifyFuel_spec _ _ (Nat.le_refl _) (minterms_sorted tbl.table i)
    refine ⟨_, ⟨i, ts', vn⟩, hnew, ?_⟩
    rw [Equation.simplify]
    show (simplifyTerms _).map _ = _
    rw [simplifyTerms, hres]
    rfl

/-- Witness for C10 at concrete sorted mergeable terms. -/
theorem c10_zip_panic_unreachable_witness :
    ∃ pr ∈ (Term.mk [(0, true)]).bits.zip (Term.mk [(0, false)]).bits,
      pr.fst.fst = pr.snd.fst ∧ pr.fst.snd = !pr.snd.snd :=
  c10_zip_panic_unreachable.1 (Term.mk [(0, true)]) (Term.mk [(0, false)])
    (by rw [Term.SortedIdx]; simp) (by rw [Term.SortedIdx]; simp) (by decide)

/-- Witness for the amended C5 at a concrete one-row table. -/
theorem c5_amended_witness :
    (equations ⟨[⟨[Bit.Off], [true]⟩]⟩ ["x"]).isSome = true ↔
      ((⟨[⟨[Bit.Off], [true]⟩]⟩ : Truth).table ≠ [] ∧
        (∀ e ∈ (⟨[⟨[Bit.Off], [true]⟩]⟩ : Truth).table,
          e.input.length =
            ((⟨[⟨[Bit.Off], [true]⟩]⟩ : Truth).table.headD default).input.length ∧
          e.output.length =
            ((⟨[⟨[Bit.Off], [true]⟩]⟩ : Truth).table.headD default).output.length) ∧
        ((⟨[⟨[Bit.Off], [true]⟩]⟩ : Truth).table.headD default).output.length =
          ["x"].length) :=
  c5_amended ⟨[⟨[Bit.Off], [true]⟩]⟩ ["x"] (by decide)

/-- Witness for the amended C8 at a concrete term. -/
theorem c8_amended_witness :
    (Term.render (Term.mk [(0, true)])).isSome = true ↔
      ∀ v ∈ (Term.mk [(0, true)]).bits, v.fst < 26 :=
  c8_amended (Term.mk [(0, true)])

end Minterm
